import Mathlib

/-!
# qlocate: the search dialog (`src/dialog.cpp`)

A shallow embedding of the search dialog of qlocate, a tray front end to the
`locate` tool, and proofs about its incremental output parser, its command
line, its status label and its result rows.

Conventions of the embedding.

* A `QString` is the list of its characters.  The source only compares
  characters with the line feed and with the slash, and cuts strings at such
  positions, so indices counted in characters and indices counted in UTF-16
  code units select the same pieces of text.
* A `QByteArray` is the list of its bytes, each a natural number below 256.
* The widgets of `Ui::Dialog` are the record `Ui`; the members of `Dialog` are
  the record `Dialog`.  A slot is a function from the state before to the
  state after.  What a slot does to the outside world (processes started,
  terminated, scheduled for deletion) is appended to the trace `effects`.
* Qt library functions (`QString::split`, `QString::mid`, `QString::arg`,
  `QRegExp`, `QString::fromUtf8`, ...) are not part of the repository; they are
  modelled from their documented behaviour, each next to its name.
-/

namespace QLocate

/-! ## Strings -/

abbrev QChar := Char
abbrev QString := List Char
abbrev QStringList := List QString
abbrev QByteArray := List Nat

/-- Model of `QString::split(sep)` with the default `KeepEmptyParts`: the
pieces between the separators, in order; a string without separator is its own
single piece, and the empty string splits into one empty piece. -/
def QString.split (sep : QChar) : QString → QStringList
  | [] => [[]]
  | c :: cs =>
    if c = sep then [] :: QString.split sep cs
    else
      match QString.split sep cs with
      | [] => [[c]]
      | l :: ls => (c :: l) :: ls

/-- Model of `QString::lastIndexOf(ch)`: the index of the last occurrence of
`ch`, or `-1` when there is none. -/
def QString.lastIndexOf (c : QChar) : QString → Int
  | [] => -1
  | x :: xs =>
    let r := QString.lastIndexOf c xs
    if 0 ≤ r then r + 1 else if x = c then 0 else -1

/-- Model of `QString::mid(position)` (length argument left at its default):
the null string when `position` exceeds the length, else the text from
`position` to the end; a negative position counts as `0`. -/
def QString.mid (s : QString) (position : Int) : QString :=
  if position > (s.length : Int) then [] else s.drop position.toNat

/-- Model of `QString::arg(a)` for a format whose only place marker is `%1`:
every occurrence of `%1` is replaced by `a`; the inserted text is not scanned
again. -/
def QString.arg : QString → QString → QString
  | [], _ => []
  | [c], _ => [c]
  | c :: d :: rest, a =>
    if c = '%' ∧ d = '1' then a ++ QString.arg rest a
    else c :: QString.arg (d :: rest) a

/-- Model of `QString::number` as used by `arg(int)` for a count: the decimal
digits. -/
def QString.number (n : Nat) : QString := (Nat.repr n).toList

/-- Translation `tr`: no translator is installed, the source text is used. -/
def tr (s : String) : QString := s.toList

/-! ## Regular expressions (the part of `QRegExp` the dialog uses) -/

/-- One element of a parsed pattern: the start anchor `^`, the end anchor `$`,
the wildcard `.`, or a character that stands for itself. -/
inductive RxAtom where
  | bol
  | eol
  | anyChar
  | lit (c : QChar)
deriving DecidableEq

/-- The characters with a special meaning in a `QRegExp` pattern; they are the
characters `QRegExp::escape` puts a backslash in front of. -/
def rxSpecial (c : QChar) : Bool :=
  c = '$' || c = '(' || c = ')' || c = '*' || c = '+' || c = '.' || c = '?' ||
  c = '[' || c = '\\' || c = ']' || c = '^' || c = '{' || c = '|' || c = '}'

/-- Model of `QRegExp::escape`: a backslash is put in front of every special
character, every other character is copied. -/
def QRegExp.escape : QString → QString
  | [] => []
  | c :: cs => if rxSpecial c then '\\' :: c :: QRegExp.escape cs else c :: QRegExp.escape cs

/-- Pattern syntax of `QRegExp`, for the patterns made of anchors, wildcards,
plain characters and backslash-escaped special characters.  A backslash in
front of a special character makes it stand for itself.  Quantifiers, groups,
alternatives, character classes and backslash-letter escapes are outside the
modelled fragment: such a pattern parses to `none`. -/
def QRegExp.parse : QString → Option (List RxAtom)
  | [] => some []
  | [c] =>
    if c = '^' then some [RxAtom.bol]
    else if c = '$' then some [RxAtom.eol]
    else if c = '.' then some [RxAtom.anyChar]
    else if rxSpecial c then none
    else some [RxAtom.lit c]
  | c :: d :: rest =>
    if c = '\\' then
      if rxSpecial d then (QRegExp.parse rest).map (fun as => RxAtom.lit d :: as) else none
    else if c = '^' then (QRegExp.parse (d :: rest)).map (fun as => RxAtom.bol :: as)
    else if c = '$' then (QRegExp.parse (d :: rest)).map (fun as => RxAtom.eol :: as)
    else if c = '.' then (QRegExp.parse (d :: rest)).map (fun as => RxAtom.anyChar :: as)
    else if rxSpecial c then none
    else (QRegExp.parse (d :: rest)).map (fun as => RxAtom.lit c :: as)

/-- A compiled `QRegExp`: the parsed pattern, `none` for a pattern outside the
modelled fragment.  Matching is case sensitive, the default. -/
structure QRegExp where
  atoms : Option (List RxAtom)
deriving DecidableEq

/-- Constructor `QRegExp(pattern)`. -/
def QRegExp.ofPattern (pattern : QString) : QRegExp := ⟨QRegExp.parse pattern⟩

/-- Does the atom sequence match at the current position?  `atStart` says
whether the position is the start of the subject, `s` is the text from the
position on. -/
def RxAtom.matchHere : List RxAtom → Bool → QString → Bool
  | [], _, _ => true
  | RxAtom.bol :: as, atStart, s => atStart && RxAtom.matchHere as atStart s
  | RxAtom.eol :: as, atStart, s => s.isEmpty && RxAtom.matchHere as atStart s
  | RxAtom.anyChar :: as, _, s =>
    match s with
    | [] => false
    | _ :: s1 => RxAtom.matchHere as false s1
  | RxAtom.lit c :: as, _, s =>
    match s with
    | [] => false
    | x :: s1 => x == c && RxAtom.matchHere as false s1

/-- Search for the first match from the current position on; the result is the
offset of the match counted from the current position, or `-1`. -/
def RxAtom.searchFrom (as : List RxAtom) : Bool → QString → Int
  | atStart, [] => if RxAtom.matchHere as atStart [] then 0 else -1
  | atStart, x :: s =>
    if RxAtom.matchHere as atStart (x :: s) then 0
    else
      let r := RxAtom.searchFrom as false s
      if 0 ≤ r then r + 1 else -1

/-- Model of `QRegExp::indexIn(str)`: the position of the first match in
`str`, or `-1` when there is none (or the pattern is not valid). -/
def QRegExp.indexIn (rx : QRegExp) (str : QString) : Int :=
  match rx.atoms with
  | none => -1
  | some as => RxAtom.searchFrom as true str

/-- Model of `QString::contains(rx)`. -/
def QString.containsRx (s : QString) (rx : QRegExp) : Bool :=
  QRegExp.indexIn rx s != -1

/-- Model of `QStringList::filter(rx)`: the strings that contain a match of
`rx`, in their order. -/
def QStringList.filter (list : QStringList) (rx : QRegExp) : QStringList :=
  List.filter (fun s => QString.containsRx s rx) list

/-! ## Decoding UTF-8 -/

/-- The replacement character U+FFFD. -/
def replacementChar : QChar := Char.ofNat 0xFFFD

/-- Is the byte a UTF-8 continuation byte (`10xxxxxx`)? -/
def isCont (b : Nat) : Bool := 0x80 ≤ b && b < 0xC0

/-- The character of a decoded sequence: the code point when it is at least
`minUc` (not an overlong form), no surrogate and below 0x110000, else the
replacement character. -/
def utf8Char (uc minUc : Nat) : QChar :=
  if uc < minUc ∨ (0xD800 ≤ uc ∧ uc ≤ 0xDFFF) ∨ 0x110000 ≤ uc then replacementChar
  else Char.ofNat uc

/-- State of the decoder inside a multi-byte sequence: `need` continuation
bytes are still missing, `uc` is the code point collected so far, `minUc` the
smallest code point the sequence length may encode, `seen` the number of
continuation bytes already read. -/
structure Utf8State where
  need : Nat
  uc : Nat
  minUc : Nat
  seen : Nat
deriving DecidableEq

/-- A byte met outside a sequence: an ASCII byte is a character, a lead byte
opens a sequence, any other byte is an error and gives the replacement
character. -/
def utf8Start (ch : Nat) : QString × Option Utf8State :=
  if ch < 0x80 then ([Char.ofNat ch], none)
  else if 0xC0 ≤ ch ∧ ch < 0xE0 then ([], some ⟨1, ch % 0x20, 0x80, 0⟩)
  else if 0xE0 ≤ ch ∧ ch < 0xF0 then ([], some ⟨2, ch % 0x10, 0x800, 0⟩)
  else if 0xF0 ≤ ch ∧ ch < 0xF8 then ([], some ⟨3, ch % 0x08, 0x10000, 0⟩)
  else ([replacementChar], none)

/-- The decoding loop of `QString::fromUtf8`, one byte at a time.  Inside a
sequence a continuation byte is added to the code point, and the last one
emits the character.  A byte that is no continuation byte breaks the sequence:
the lead byte and the continuation bytes read so far give one replacement
character each, and the byte is then read as a byte outside a sequence.  Input
that ends inside a sequence gives one replacement character for each byte of
the unfinished sequence; nothing is carried over to a later call. -/
def utf8Loop : Option Utf8State → QByteArray → QString
  | none, [] => []
  | some st, [] => List.replicate (1 + st.seen) replacementChar
  | none, ch :: rest => (utf8Start ch).1 ++ utf8Loop (utf8Start ch).2 rest
  | some st, ch :: rest =>
    if isCont ch then
      if st.need ≤ 1 then
        utf8Char (st.uc * 0x40 + ch % 0x40) st.minUc :: utf8Loop none rest
      else
        utf8Loop (some ⟨st.need - 1, st.uc * 0x40 + ch % 0x40, st.minUc, st.seen + 1⟩) rest
    else
      List.replicate (1 + st.seen) replacementChar ++
        ((utf8Start ch).1 ++ utf8Loop (utf8Start ch).2 rest)

/-- Model of `QString::fromUtf8(bytes)`: a byte order mark at the very start
is skipped, the rest is decoded; no decoder state is kept from one call to the
next. -/
def QString.fromUtf8 (bytes : QByteArray) : QString :=
  match bytes with
  | 0xEF :: 0xBB :: 0xBF :: rest => utf8Loop none rest
  | _ => utf8Loop none bytes

/-! ## The dialog state -/

/-- A colour, as its RGB value. -/
abbrev QColor := Nat

/-- The global colour `Qt::red`. -/
def Qt.red : QColor := 0xFF0000

/-- The palette of the status label.  The source only ever sets the colour of
the label's foreground role, so this is the one entry recorded. -/
structure QPalette where
  foreground : QColor
deriving DecidableEq

/-- Model of `QPalette::setColor(role, color)` for the foreground role. -/
def QPalette.setColor (_p : QPalette) (color : QColor) : QPalette := ⟨color⟩

/-- A row of the result list.  `icon` records the file name handed to the icon
provider, `display` the data of `Qt::DisplayRole`, `toolTip` the data of
`Qt::ToolTipRole` (`none` while not set). -/
structure QListWidgetItem where
  icon : QString
  display : Option QString
  toolTip : Option QString
deriving DecidableEq

/-- A started process: the program and its argument list. -/
structure QProcess where
  program : QString
  arguments : QStringList
deriving DecidableEq

/-- What the dialog does to processes. -/
inductive Effect where
  | start (p : QProcess)
  | terminate (p : QProcess)
  | deleteLater (p : QProcess)
deriving DecidableEq

/-- The widgets of `Ui::Dialog` the slots read and write. -/
structure Ui where
  lineEdit : QString
  checkBoxCaseSensitive : Bool
  checkBoxRegExp : Bool
  checkBoxSearchOnlyHome : Bool
  checkBoxShowFullPath : Bool
  listWidget : List QListWidgetItem
  labelStatusText : QString
  labelStatusPalette : QPalette
deriving DecidableEq

/-- The members of `Dialog`, and the trace of its effects on processes.
(`reallyQuit`, the icon provider and the context menu play no part in the
search slots.) -/
structure Dialog where
  ui : Ui
  locate : Option QProcess
  originalLabelPalette : QPalette
  oldCaseSensitive : Bool
  oldUseRegExp : Bool
  oldSearchOnlyHome : Bool
  oldShowFullPath : Bool
  oldFindString : QString
  lastPartialLine : QString
  effects : List Effect
deriving DecidableEq

/-- The constructor `Dialog::Dialog`, given the widgets as `setupUi` made
them. -/
def Dialog.init (ui : Ui) : Dialog where
  ui := ui
  locate := none
  originalLabelPalette := ui.labelStatusPalette
  oldCaseSensitive := false
  oldUseRegExp := false
  oldSearchOnlyHome := true
  oldShowFullPath := false
  oldFindString := []
  lastPartialLine := []
  effects := []

/-- The user edits the query text or toggles check boxes. -/
def Dialog.setInputs (d : Dialog) (text : QString) (caseSensitive regExp onlyHome fullPath : Bool) :
    Dialog :=
  { d with ui := { d.ui with
      lineEdit := text
      checkBoxCaseSensitive := caseSensitive
      checkBoxRegExp := regExp
      checkBoxSearchOnlyHome := onlyHome
      checkBoxShowFullPath := fullPath } }

/-- The processes started, in order, according to a trace. -/
def startedProcesses : List Effect → List QProcess
  | [] => []
  | Effect.start p :: es => p :: startedProcesses es
  | _ :: es => startedProcesses es

/-! ## `Dialog::readLocateOutput` -/

/-- The row built for one file name (the body of the `foreach` loop). -/
def newItem (showFullPath : Bool) (filename : QString) : QListWidgetItem :=
  if showFullPath then
    { icon := filename, display := some filename, toolTip := none }
  else
    { icon := filename
      display := some (QString.mid filename (QString.lastIndexOf '/' filename + 1))
      toolTip := some filename }

/-- The file name `openFile` reads back from a row: the display data when full
paths are shown, else the tool tip. -/
def QListWidgetItem.path (showFullPath : Bool) (item : QListWidgetItem) : Option QString :=
  if showFullPath then item.display else item.toolTip

/-- The complete lines of a buffer (all pieces of the split but the last),
filtered to the home directory when the check box is set. -/
def completeLines (home : QString) (onlyHome : Bool) (buffer : QString) : QStringList :=
  let list := (QString.split '\n' buffer).dropLast
  if onlyHome then
    QStringList.filter list
      (QRegExp.ofPattern (QString.arg "^%1/".toList (QRegExp.escape home)))
  else list

/-- The body of `readLocateOutput` once the chunk has been read and decoded:
`output` is `QString::fromUtf8(locate->readAllStandardOutput())` and `home` is
`QDir::homePath()`. -/
def readLocateOutputDecoded (home : QString) (d : Dialog) (output : QString) : Dialog :=
  let lastCount := d.ui.listWidget.length
  let buffer := d.lastPartialLine ++ output
  let list := completeLines home d.ui.checkBoxSearchOnlyHome buffer
  let items := d.ui.listWidget ++ list.map (newItem d.ui.checkBoxShowFullPath)
  let count := items.length
  let text :=
    if count ≠ lastCount then
      if count = 1 then tr "Searching (1 file found)..."
      else QString.arg (tr "Searching (%1 files found)...") (QString.number count)
    else d.ui.labelStatusText
  { d with
    lastPartialLine := (QString.split '\n' buffer).getLastD []
    ui := { d.ui with listWidget := items, labelStatusText := text } }

/-- The slot `readLocateOutput`; `bytes` is what
`locate->readAllStandardOutput()` returns.  With no current process the slot
dereferences a null pointer: `none`. -/
def readLocateOutput (home : QString) (d : Dialog) (bytes : QByteArray) : Option Dialog :=
  match d.locate with
  | none => none
  | some _ => some (readLocateOutputDecoded home d (QString.fromUtf8 bytes))

/-! ## `Dialog::locateFinished` -/

/-- The body of `locateFinished` when `locate` points to the process `p`. -/
def locateFinishedOn (d : Dialog) (p : QProcess) : Dialog :=
  let count := d.ui.listWidget.length
  let ui1 : Ui :=
    if count > 1 then
      { d.ui with
        labelStatusText := QString.arg (tr "%1 files found.") (QString.number count) }
    else if count = 1 then
      { d.ui with labelStatusText := tr "1 file found." }
    else
      { d.ui with
        labelStatusPalette := QPalette.setColor d.originalLabelPalette Qt.red
        labelStatusText := tr "Nothing found." }
  { d with ui := ui1, effects := d.effects ++ [Effect.deleteLater p], locate := none }

/-- The slot `locateFinished`.  With no current process `locate->deleteLater()`
dereferences a null pointer: `none`. -/
def locateFinished (d : Dialog) : Option Dialog :=
  match d.locate with
  | none => none
  | some p => some (locateFinishedOn d p)

/-! ## `Dialog::onFind` -/

/-- What happens inside `locate->waitForFinished()`: the signals of the
process are delivered while the slot waits.  `output` lists the chunks for
which `readyReadStandardOutput` is emitted, `finished` says whether
`finished(int)` is emitted before the wait returns (it is not when the wait
times out). -/
structure WaitEvents where
  output : List QByteArray
  finished : Bool
deriving DecidableEq

/-- The lines `locate->terminate(); locate->waitForFinished();` for the
current process `p`: the slots connected to the signals of `p` run inside the
wait. -/
def waitForFinished (home : QString) (d : Dialog) (p : QProcess) (w : WaitEvents) : Dialog :=
  let d1 := { d with effects := d.effects ++ [Effect.terminate p] }
  let d2 := w.output.foldl (fun s bytes => readLocateOutputDecoded home s (QString.fromUtf8 bytes)) d1
  if w.finished then locateFinishedOn d2 p else d2

/-- The argument list `onFind` builds for `locate`. -/
def locateArgs (text : QString) (caseSensitive regExp : Bool) : QStringList :=
  let args := ["--existing".toList, "--basename".toList]
  let args := if !caseSensitive then args ++ ["--ignore-case".toList] else args
  let args := if regExp then args ++ ["--regexp".toList] else args
  args ++ [text]

/-- The guard at the head of `onFind`: the inputs are those of the last
search. -/
def Dialog.unchanged (d : Dialog) : Bool :=
  d.oldFindString == d.ui.lineEdit &&
  d.oldShowFullPath == d.ui.checkBoxShowFullPath &&
  d.oldUseRegExp == d.ui.checkBoxRegExp &&
  d.oldCaseSensitive == d.ui.checkBoxCaseSensitive &&
  d.oldSearchOnlyHome == d.ui.checkBoxSearchOnlyHome

/-- The first part of `onFind` past the guard (lines 100 to 109): the inputs
are stored as those of the last search, and a running process is terminated
and waited for. -/
def onFindStopPrevious (home : QString) (d : Dialog) (w : WaitEvents) : Dialog :=
  let d1 := { d with
    oldShowFullPath := d.ui.checkBoxShowFullPath
    oldUseRegExp := d.ui.checkBoxRegExp
    oldCaseSensitive := d.ui.checkBoxCaseSensitive
    oldSearchOnlyHome := d.ui.checkBoxSearchOnlyHome
    oldFindString := d.ui.lineEdit }
  match d1.locate with
  | some p => waitForFinished home d1 p w
  | none => d1

/-- The slot `onFind`.  `home` and `w` are used only when a process is
running: they describe what its signals deliver during the wait. -/
def onFind (home : QString) (d : Dialog) (w : WaitEvents) : Dialog :=
  if d.unchanged then d
  else
    let d2 := onFindStopPrevious home d w
    let d3 := { d2 with ui := { d2.ui with
      listWidget := []
      labelStatusPalette := d2.originalLabelPalette } }
    if d3.ui.lineEdit.isEmpty then
      { d3 with ui := { d3.ui with labelStatusText := tr "Ready." } }
    else
      let d4 := { d3 with
        lastPartialLine := []
        ui := { d3.ui with labelStatusText := tr "Searching..." } }
      let p : QProcess :=
        ⟨"locate".toList,
          locateArgs d4.ui.lineEdit d4.ui.checkBoxCaseSensitive d4.ui.checkBoxRegExp⟩
      { d4 with locate := some p, effects := d4.effects ++ [Effect.start p] }

/-! ## Feeding chunks, reachable states -/

/-- Text chunks handed one by one to the body of `readLocateOutput`. -/
def feedDecoded (home : QString) (d : Dialog) (chunks : List QString) : Dialog :=
  chunks.foldl (readLocateOutputDecoded home) d

/-- Byte chunks handed one by one to `readLocateOutput`. -/
def feedBytes (home : QString) : Dialog → List QByteArray → Option Dialog
  | d, [] => some d
  | d, bytes :: rest =>
    match readLocateOutput home d bytes with
    | none => none
    | some d1 => feedBytes home d1 rest

/-- The states the dialog can be in: the state after construction, and every
state reached from one by an input of the user or by a slot. -/
inductive Reachable : Dialog → Prop where
  | init (ui : Ui) : Reachable (Dialog.init ui)
  | setInputs (d : Dialog) (text : QString) (cs re oh fp : Bool) :
      Reachable d → Reachable (d.setInputs text cs re oh fp)
  | onFind (home : QString) (d : Dialog) (w : WaitEvents) :
      Reachable d → Reachable (onFind home d w)
  | readLocateOutput (home : QString) (d d1 : Dialog) (bytes : QByteArray) :
      Reachable d → readLocateOutput home d bytes = some d1 → Reachable d1
  | locateFinished (d d1 : Dialog) :
      Reachable d → locateFinished d = some d1 → Reachable d1

/-- The text of complete lines: every line followed by a line feed. -/
def unlines (ls : QStringList) : QString :=
  (ls.map (fun l => l ++ ['\n'])).flatten

/-! ## Example states -/

/-- Widgets as after `setupUi`: empty query, no box checked, empty list. -/
def exampleUi : Ui where
  lineEdit := []
  checkBoxCaseSensitive := false
  checkBoxRegExp := false
  checkBoxSearchOnlyHome := false
  checkBoxShowFullPath := false
  listWidget := []
  labelStatusText := []
  labelStatusPalette := ⟨0⟩

/-- The home directory of the examples. -/
def exampleHome : QString := "/home/alice".toList

/-- The dialog while the search for `doc` runs. -/
def exampleSearching : Dialog :=
  onFind exampleHome ((Dialog.init exampleUi).setInputs "doc".toList false false false false)
    ⟨[], false⟩

/-- The running search of the example after the output chunk `/home/alice/do`
(a line not yet complete) has been read. -/
def exampleFragment : Dialog :=
  readLocateOutputDecoded exampleHome exampleSearching "/home/alice/do".toList

/-- The user then clears the query text. -/
def exampleCleared : Dialog := exampleFragment.setInputs [] false false false false

/-- The user instead extends the query text to `docs`. -/
def exampleExtended : Dialog := exampleFragment.setInputs "docs".toList false false false false

/-- A dialog whose search has appended three rows and is still running. -/
def exampleThreeRows : Dialog :=
  readLocateOutputDecoded exampleHome exampleSearching "/a/doc1\n/b/doc2\n/c/doc3\n".toList

/-- The dialog while the search for `doc` runs with the home-only box set. -/
def exampleHomeOnly : Dialog :=
  onFind exampleHome ((Dialog.init exampleUi).setInputs "doc".toList false false true false)
    ⟨[], false⟩

/-! ## Facts about `split` -/

theorem split_ne_nil (sep : QChar) (s : QString) : QString.split sep s ≠ [] := by
  induction s with
  | nil => simp [QString.split]
  | cons c cs ih =>
    unfold QString.split
    split
    · simp
    · cases h : QString.split sep cs with
      | nil => simp
      | cons l ls => simp

theorem split_cons_sep (sep : QChar) (cs : QString) :
    QString.split sep (sep :: cs) = [] :: QString.split sep cs := by
  simp [QString.split]

theorem split_cons_ne (sep c : QChar) (cs : QString) (h : c ≠ sep) :
    ∃ l ls, QString.split sep cs = l :: ls ∧ QString.split sep (c :: cs) = (c :: l) :: ls := by
  cases hs : QString.split sep cs with
  | nil => exact absurd hs (split_ne_nil sep cs)
  | cons l ls =>
    refine ⟨l, ls, rfl, ?_⟩
    simp [QString.split, h, hs]

/-- No piece of a split contains the separator. -/
theorem split_no_sep (sep : QChar) (s : QString) : ∀ l ∈ QString.split sep s, sep ∉ l := by
  induction s with
  | nil => simp [QString.split]
  | cons c cs ih =>
    by_cases h : c = sep
    · subst h
      rw [split_cons_sep]
      intro l hl
      rcases List.mem_cons.1 hl with rfl | hl
      · simp
      · exact ih l hl
    · obtain ⟨l, ls, h1, h2⟩ := split_cons_ne sep c cs h
      rw [h2]
      rw [h1] at ih
      intro x hx
      rcases List.mem_cons.1 hx with rfl | hx
      · intro hmem
        rcases List.mem_cons.1 hmem with e | e
        · exact h e.symm
        · exact ih l (List.mem_cons_self _ _) e
      · exact ih x (List.mem_cons_of_mem _ hx)

/-- A string without separator is its own single piece. -/
theorem split_of_not_mem (sep : QChar) (s : QString) (h : sep ∉ s) :
    QString.split sep s = [s] := by
  induction s with
  | nil => rfl
  | cons c cs ih =>
    have hc : c ≠ sep := fun e => h (e ▸ List.mem_cons_self _ _)
    have hcs : sep ∉ cs := fun e => h (List.mem_cons_of_mem _ e)
    obtain ⟨l, ls, h1, h2⟩ := split_cons_ne sep c cs hc
    rw [h2]
    rw [ih hcs] at h1
    cases h1
    rfl

/-- Splitting a text that starts with a separator-free line and a separator. -/
theorem split_line_append (sep : QChar) (l t : QString) (h : sep ∉ l) :
    QString.split sep (l ++ sep :: t) = l :: QString.split sep t := by
  induction l with
  | nil => simpa using split_cons_sep sep t
  | cons c cs ih =>
    have hc : c ≠ sep := fun e => h (e ▸ List.mem_cons_self _ _)
    have hcs : sep ∉ cs := fun e => h (List.mem_cons_of_mem _ e)
    obtain ⟨l1, ls1, h1, h2⟩ := split_cons_ne sep c (cs ++ sep :: t) hc
    rw [List.cons_append, h2]
    rw [ih hcs] at h1
    cases h1
    rfl

/-- Splitting is incremental: the pieces of `s ++ t` are the complete pieces
of `s` followed by the pieces of the last piece of `s` with `t` appended. -/
theorem split_append (sep : QChar) (s t : QString) :
    QString.split sep (s ++ t) =
      (QString.split sep s).dropLast ++
        QString.split sep ((QString.split sep s).getLastD [] ++ t) := by
  induction s with
  | nil => simp [QString.split]
  | cons c cs ih =>
    by_cases h : c = sep
    · subst h
      rw [List.cons_append, split_cons_sep, split_cons_sep, ih]
      cases hs : QString.split c cs with
      | nil => exact absurd hs (split_ne_nil c cs)
      | cons l ls => simp [List.dropLast]
    · obtain ⟨l, ls, h1, h2⟩ := split_cons_ne sep c cs h
      obtain ⟨l1, ls1, h3, h4⟩ := split_cons_ne sep c (cs ++ t) h
      rw [List.cons_append, h4, h2]
      rw [ih, h1] at h3
      cases ls with
      | nil =>
        simp only [List.dropLast, List.getLastD_cons, List.getLastD_nil, List.nil_append] at h3 ⊢
        obtain ⟨l2, ls2, h5, h6⟩ := split_cons_ne sep c (l ++ t) h
        rw [List.cons_append, h6]
        rw [h5] at h3
        cases h3
        rfl
      | cons m ms =>
        simp only [List.dropLast, List.cons_append, List.getLastD_cons] at h3 ⊢
        cases h3
        rfl

/-- The pieces of complete lines followed by an unfinished line. -/
theorem split_unlines (ls : QStringList) (p : QString)
    (hls : ∀ l ∈ ls, '\n' ∉ l) (hp : '\n' ∉ p) :
    QString.split '\n' (unlines ls ++ p) = ls ++ [p] := by
  induction ls with
  | nil => simpa [unlines] using split_of_not_mem '\n' p hp
  | cons l ls ih =>
    have h1 : unlines (l :: ls) ++ p = l ++ '\n' :: (unlines ls ++ p) := by
      simp [unlines]
    rw [h1, split_line_append '\n' l _ (hls l (List.mem_cons_self _ _)),
      ih (fun x hx => hls x (List.mem_cons_of_mem _ hx))]
    rfl

/-- Complete lines determine their list: `unlines` is injective on lists of
newline-free lines. -/
theorem unlines_injective (ls ms : QStringList)
    (hls : ∀ l ∈ ls, '\n' ∉ l) (hms : ∀ l ∈ ms, '\n' ∉ l)
    (h : unlines ls = unlines ms) : ls = ms := by
  have h1 := split_unlines ls [] hls (by simp)
  have h2 := split_unlines ms [] hms (by simp)
  rw [List.append_nil] at h1 h2
  rw [h] at h1
  rw [h1] at h2
  exact List.append_cancel_right h2

/-- Every text is a list of complete lines followed by an unfinished line. -/
theorem unlines_split (s : QString) :
    unlines (QString.split '\n' s).dropLast ++ (QString.split '\n' s).getLastD [] = s := by
  induction s with
  | nil => simp [QString.split, unlines]
  | cons c cs ih =>
    by_cases h : c = '\n'
    · subst h
      rw [split_cons_sep]
      cases hs : QString.split '\n' cs with
      | nil => exact absurd hs (split_ne_nil _ cs)
      | cons l ls =>
        rw [hs] at ih
        simp only [List.getLastD_cons]
        cases ls with
        | nil => simpa [unlines] using ih
        | cons m ms =>
          simp only [List.dropLast, List.getLastD_cons] at ih ⊢
          simp only [unlines, List.map_cons, List.flatten_cons, List.nil_append, List.cons_append,
            List.cons.injEq, true_and] at ih ⊢
          exact ih
    · obtain ⟨l, ls, h1, h2⟩ := split_cons_ne '\n' c cs h
      rw [h2]
      rw [h1] at ih
      cases ls with
      | nil =>
        simp [unlines] at ih ⊢
        exact ih
      | cons m ms =>
        simp only [List.dropLast, List.getLastD_cons] at ih ⊢
        simp only [unlines, List.map_cons, List.flatten_cons, List.cons_append, List.append_assoc,
          List.cons.injEq, true_and] at ih ⊢
        rw [← ih]

theorem getLastD_append_of_ne_nil {α : Type} (A B : List α) (a : α) (h : B ≠ []) :
    (A ++ B).getLastD a = B.getLastD a := by
  cases B with
  | nil => exact absurd rfl h
  | cons b bs =>
    induction A with
    | nil => rfl
    | cons x xs ih =>
      cases xs with
      | nil => simp [List.getLastD]
      | cons y ys =>
        simp only [List.cons_append, List.getLastD_cons] at ih ⊢
        exact ih

theorem getLastD_mem_of_ne_nil {α : Type} (A : List α) (a : α) (h : A ≠ []) :
    A.getLastD a ∈ A := by
  cases A with
  | nil => exact absurd rfl h
  | cons x xs =>
    rw [List.getLastD_cons]
    exact List.getLastD_mem_cons xs x

/-- The unfinished line kept by the parser contains no line feed. -/
theorem getLastD_split_no_sep (sep : QChar) (s : QString) :
    sep ∉ (QString.split sep s).getLastD [] :=
  split_no_sep sep s _ (getLastD_mem_of_ne_nil _ _ (split_ne_nil sep s))

/-! ## Facts about `readLocateOutput` -/

theorem completeLines_sublist (home : QString) (onlyHome : Bool) (buffer : QString) :
    (completeLines home onlyHome buffer).Sublist (QString.split '\n' buffer).dropLast := by
  unfold completeLines
  cases onlyHome with
  | false => simp
  | true => simp [QStringList.filter]

theorem completeLines_off (home : QString) (buffer : QString) :
    completeLines home false buffer = (QString.split '\n' buffer).dropLast := by
  simp [completeLines]

/-- The complete lines of `s ++ t` are those of `s`, then those of the
unfinished line of `s` with `t` appended. -/
theorem completeLines_append (home : QString) (onlyHome : Bool) (s t : QString) :
    completeLines home onlyHome (s ++ t) =
      completeLines home onlyHome s ++
        completeLines home onlyHome ((QString.split '\n' s).getLastD [] ++ t) := by
  have h := split_append '\n' s t
  have hne := split_ne_nil '\n' ((QString.split '\n' s).getLastD [] ++ t)
  have hd : (QString.split '\n' (s ++ t)).dropLast =
      (QString.split '\n' s).dropLast ++
        (QString.split '\n' ((QString.split '\n' s).getLastD [] ++ t)).dropLast := by
    rw [h]
    exact List.dropLast_append_of_ne_nil _ hne
  unfold completeLines
  rw [hd]
  cases onlyHome with
  | false => rfl
  | true => simp only [QStringList.filter, List.filter_append, if_true]

theorem lastLine_append (s t : QString) :
    (QString.split '\n' (s ++ t)).getLastD [] =
      (QString.split '\n' ((QString.split '\n' s).getLastD [] ++ t)).getLastD [] := by
  rw [split_append '\n' s t]
  exact getLastD_append_of_ne_nil _ _ _ (split_ne_nil _ _)

@[simp] theorem readLocateOutputDecoded_lastPartialLine (home : QString) (d : Dialog)
    (output : QString) :
    (readLocateOutputDecoded home d output).lastPartialLine =
      (QString.split '\n' (d.lastPartialLine ++ output)).getLastD [] := rfl

@[simp] theorem readLocateOutputDecoded_listWidget (home : QString) (d : Dialog)
    (output : QString) :
    (readLocateOutputDecoded home d output).ui.listWidget =
      d.ui.listWidget ++
        (completeLines home d.ui.checkBoxSearchOnlyHome (d.lastPartialLine ++ output)).map
          (newItem d.ui.checkBoxShowFullPath) := rfl

@[simp] theorem readLocateOutputDecoded_onlyHome (home : QString) (d : Dialog)
    (output : QString) :
    (readLocateOutputDecoded home d output).ui.checkBoxSearchOnlyHome =
      d.ui.checkBoxSearchOnlyHome := rfl

@[simp] theorem readLocateOutputDecoded_showFullPath (home : QString) (d : Dialog)
    (output : QString) :
    (readLocateOutputDecoded home d output).ui.checkBoxShowFullPath =
      d.ui.checkBoxShowFullPath := rfl

@[simp] theorem readLocateOutputDecoded_locate (home : QString) (d : Dialog)
    (output : QString) :
    (readLocateOutputDecoded home d output).locate = d.locate := rfl

@[simp] theorem readLocateOutputDecoded_effects (home : QString) (d : Dialog)
    (output : QString) :
    (readLocateOutputDecoded home d output).effects = d.effects := rfl

@[simp] theorem readLocateOutputDecoded_lineEdit (home : QString) (d : Dialog)
    (output : QString) :
    (readLocateOutputDecoded home d output).ui.lineEdit = d.ui.lineEdit := rfl

@[simp] theorem readLocateOutputDecoded_originalLabelPalette (home : QString) (d : Dialog)
    (output : QString) :
    (readLocateOutputDecoded home d output).originalLabelPalette = d.originalLabelPalette := rfl

@[simp] theorem readLocateOutputDecoded_caseSensitive (home : QString) (d : Dialog)
    (output : QString) :
    (readLocateOutputDecoded home d output).ui.checkBoxCaseSensitive =
      d.ui.checkBoxCaseSensitive := rfl

@[simp] theorem readLocateOutputDecoded_regExp (home : QString) (d : Dialog)
    (output : QString) :
    (readLocateOutputDecoded home d output).ui.checkBoxRegExp = d.ui.checkBoxRegExp := rfl

/-- Feeding text chunks one by one, from a buffer without line feed: the
buffer ends as the unfinished line of the whole text, and the rows appended
are the rows of the complete lines of the whole text. -/
theorem feedDecoded_spec (home : QString) (chunks : List QString) :
    ∀ d : Dialog, '\n' ∉ d.lastPartialLine →
      (feedDecoded home d chunks).lastPartialLine =
          (QString.split '\n' (d.lastPartialLine ++ chunks.flatten)).getLastD [] ∧
        (feedDecoded home d chunks).ui.listWidget =
          d.ui.listWidget ++
            (completeLines home d.ui.checkBoxSearchOnlyHome
              (d.lastPartialLine ++ chunks.flatten)).map (newItem d.ui.checkBoxShowFullPath) ∧
        (feedDecoded home d chunks).ui.checkBoxSearchOnlyHome = d.ui.checkBoxSearchOnlyHome ∧
        (feedDecoded home d chunks).ui.checkBoxShowFullPath = d.ui.checkBoxShowFullPath := by
  induction chunks with
  | nil =>
    intro d hd
    simp [feedDecoded, split_of_not_mem '\n' _ hd, completeLines, QStringList.filter]
  | cons c cs ih =>
    intro d hd
    have hstep : feedDecoded home d (c :: cs) =
        feedDecoded home (readLocateOutputDecoded home d c) cs := rfl
    have h1 := ih (readLocateOutputDecoded home d c)
      (by simpa using getLastD_split_no_sep '\n' (d.lastPartialLine ++ c))
    obtain ⟨hp, hl, ho, hf⟩ := h1
    rw [hstep]
    refine ⟨?_, ?_, ?_, ?_⟩
    · rw [hp, readLocateOutputDecoded_lastPartialLine, List.flatten_cons, ← List.append_assoc,
        lastLine_append (d.lastPartialLine ++ c) cs.flatten]
    · rw [hl, readLocateOutputDecoded_listWidget, readLocateOutputDecoded_lastPartialLine,
        readLocateOutputDecoded_onlyHome, readLocateOutputDecoded_showFullPath,
        List.flatten_cons, ← List.append_assoc d.lastPartialLine,
        completeLines_append home _ (d.lastPartialLine ++ c) cs.flatten, List.map_append,
        List.append_assoc]
    · rw [ho, readLocateOutputDecoded_onlyHome]
    · rw [hf, readLocateOutputDecoded_showFullPath]

theorem path_newItem (fp : Bool) (filename : QString) :
    QListWidgetItem.path fp (newItem fp filename) = some filename := by
  cases fp <;> rfl

theorem map_path_newItem (fp : Bool) (ls : QStringList) :
    (ls.map (newItem fp)).map (QListWidgetItem.path fp) = ls.map some := by
  induction ls with
  | nil => rfl
  | cons l ls ih => simp [path_newItem]

/-- A decomposition of a text into newline-free complete lines and a
newline-free rest is the one the split computes. -/
theorem unlines_append_unique (s : QString) (ms : QStringList) (q : QString)
    (hms : ∀ l ∈ ms, '\n' ∉ l) (hq : '\n' ∉ q) (h : unlines ms ++ q = s) :
    ms = (QString.split '\n' s).dropLast ∧ q = (QString.split '\n' s).getLastD [] := by
  have h1 := split_unlines ms q hms hq
  rw [h] at h1
  rw [h1]
  constructor
  · simp
  · rw [List.getLastD_concat]

/-- With a current process, byte chunks handed to the slot `readLocateOutput`
one by one are decoded one by one and handed to its body. -/
theorem feedBytes_eq_feedDecoded (home : QString) (chunks : List QByteArray) :
    ∀ (d : Dialog) (p : QProcess), d.locate = some p →
      feedBytes home d chunks = some (feedDecoded home d (chunks.map QString.fromUtf8)) := by
  induction chunks with
  | nil => intro d p _; rfl
  | cons b bs ih =>
    intro d p hp
    have h1 : readLocateOutput home d b =
        some (readLocateOutputDecoded home d (QString.fromUtf8 b)) := by
      simp [readLocateOutput, hp]
    have h2 : feedBytes home d (b :: bs) =
        feedBytes home (readLocateOutputDecoded home d (QString.fromUtf8 b)) bs := by
      simp [feedBytes, h1]
    rw [h2, ih _ p (by simpa using hp)]
    rfl

/-! ## The incremental parser (C1, C2) -/

/-- C1. Newline-terminated output: from an empty pending buffer, with the
home-only filter off, after text chunks (the decoded output of each read)
whose concatenation ends in a line feed have been handed one by one to
`readLocateOutput`, the rows appended are the rows of the lines `ls` of the
concatenation, in order, where `ls` is the one list of newline-free strings
with `l1 \n l2 \n ... ln \n` equal to the concatenation; the path of each row
is its line; the pending buffer is empty.  The state `feedDecoded` computes is
the state the slot reaches on any byte chunks that decode to the text
chunks. -/
theorem readLocateOutput_newline_terminated (home : QString) (d : Dialog)
    (chunks : List QString)
    (hbuf : d.lastPartialLine = [])
    (hoff : d.ui.checkBoxSearchOnlyHome = false)
    (hend : ∃ t, chunks.flatten = t ++ ['\n']) :
    ∃ ls : QStringList,
      (∀ l ∈ ls, '\n' ∉ l) ∧
      unlines ls = chunks.flatten ∧
      (∀ ms : QStringList, (∀ l ∈ ms, '\n' ∉ l) → unlines ms = chunks.flatten → ms = ls) ∧
      (feedDecoded home d chunks).ui.listWidget =
        d.ui.listWidget ++ ls.map (newItem d.ui.checkBoxShowFullPath) ∧
      (ls.map (newItem d.ui.checkBoxShowFullPath)).map
        (QListWidgetItem.path d.ui.checkBoxShowFullPath) = ls.map some ∧
      (feedDecoded home d chunks).lastPartialLine = [] ∧
      (∀ (p : QProcess) (bs : List QByteArray), d.locate = some p →
        bs.map QString.fromUtf8 = chunks →
        feedBytes home d bs = some (feedDecoded home d chunks)) := by
  obtain ⟨t, ht⟩ := hend
  obtain ⟨hp, hl, -, -⟩ := feedDecoded_spec home chunks d (by simp [hbuf])
  rw [hbuf, List.nil_append] at hp hl
  rw [hoff, completeLines_off] at hl
  have hdec := unlines_split chunks.flatten
  have hlast := getLastD_split_no_sep '\n' chunks.flatten
  have hnil : (QString.split '\n' chunks.flatten).getLastD [] = [] := by
    rcases List.eq_nil_or_concat ((QString.split '\n' chunks.flatten).getLastD []) with h | h
    · exact h
    · obtain ⟨L, b, hLb⟩ := h
      exfalso
      rw [hLb, ht, List.concat_eq_append, ← List.append_assoc] at hdec
      have hb : b = '\n' := by
        have := List.append_inj_right' hdec rfl
        simpa using this
      apply hlast
      rw [hLb, hb]
      simp
  have hls : ∀ l ∈ (QString.split '\n' chunks.flatten).dropLast, '\n' ∉ l :=
    fun l hl => split_no_sep '\n' _ l (List.dropLast_subset _ hl)
  rw [hnil, List.append_nil] at hdec
  refine ⟨(QString.split '\n' chunks.flatten).dropLast, hls, hdec, ?_, hl,
    map_path_newItem _ _, by rw [hp, hnil], ?_⟩
  · intro ms hms hm
    exact unlines_injective ms _ hms hls (hm.trans hdec.symm)
  · intro p bs hloc hbs
    rw [← hbs]
    exact feedBytes_eq_feedDecoded home bs d p hloc

/-- Witness for C1: the chunks `a\nb` and `c\n`. -/
theorem readLocateOutput_newline_terminated_witness :
    ∃ ls : QStringList,
      (∀ l ∈ ls, '\n' ∉ l) ∧
      unlines ls = ["a\nb".toList, "c\n".toList].flatten ∧
      (∀ ms : QStringList, (∀ l ∈ ms, '\n' ∉ l) →
        unlines ms = ["a\nb".toList, "c\n".toList].flatten → ms = ls) ∧
      (feedDecoded exampleHome exampleSearching ["a\nb".toList, "c\n".toList]).ui.listWidget =
        exampleSearching.ui.listWidget ++
          ls.map (newItem exampleSearching.ui.checkBoxShowFullPath) ∧
      (ls.map (newItem exampleSearching.ui.checkBoxShowFullPath)).map
        (QListWidgetItem.path exampleSearching.ui.checkBoxShowFullPath) = ls.map some ∧
      (feedDecoded exampleHome exampleSearching ["a\nb".toList, "c\n".toList]).lastPartialLine
        = [] ∧
      (∀ (p : QProcess) (bs : List QByteArray), exampleSearching.locate = some p →
        bs.map QString.fromUtf8 = ["a\nb".toList, "c\n".toList] →
        feedBytes exampleHome exampleSearching bs =
          some (feedDecoded exampleHome exampleSearching ["a\nb".toList, "c\n".toList])) :=
  readLocateOutput_newline_terminated exampleHome exampleSearching
    ["a\nb".toList, "c\n".toList] (by decide) (by decide) ⟨"a\nbc".toList, by decide⟩

/-- C2. Unterminated output: from an empty pending buffer, after text chunks
(the decoded output of each read) whose concatenation does not end in a line
feed have been handed one by one to `readLocateOutput`, the pending buffer is the
text `p` after the last line feed of the concatenation (the concatenation is
`l1 \n ... ln \n p` with no line feed in `p` nor in a line; `p` is the whole
concatenation when it has no line feed); the rows appended are rows of the
lines `l1 ... ln` before the last line feed only (all of them with the
home-only filter off, a sublist of them with it on): `p` is not made a row.
The state `feedDecoded` computes is the state the slot reaches on any byte
chunks that decode to the text chunks. -/
theorem readLocateOutput_unterminated (home : QString) (d : Dialog) (chunks : List QString)
    (hbuf : d.lastPartialLine = [])
    (hend : ¬ ∃ t, chunks.flatten = t ++ ['\n']) :
    ∃ (ls : QStringList) (p : QString) (kept : QStringList),
      (∀ l ∈ ls, '\n' ∉ l) ∧ '\n' ∉ p ∧
      chunks.flatten = unlines ls ++ p ∧
      (∀ (ms : QStringList) (q : QString), (∀ l ∈ ms, '\n' ∉ l) → '\n' ∉ q →
        chunks.flatten = unlines ms ++ q → ms = ls ∧ q = p) ∧
      ('\n' ∉ chunks.flatten → p = chunks.flatten) ∧
      (chunks.flatten ≠ [] → p ≠ []) ∧
      (feedDecoded home d chunks).lastPartialLine = p ∧
      kept.Sublist ls ∧
      (d.ui.checkBoxSearchOnlyHome = false → kept = ls) ∧
      (feedDecoded home d chunks).ui.listWidget =
        d.ui.listWidget ++ kept.map (newItem d.ui.checkBoxShowFullPath) ∧
      (∀ (r : QProcess) (bs : List QByteArray), d.locate = some r →
        bs.map QString.fromUtf8 = chunks →
        feedBytes home d bs = some (feedDecoded home d chunks)) := by
  obtain ⟨hp, hl, -, -⟩ := feedDecoded_spec home chunks d (by simp [hbuf])
  rw [hbuf, List.nil_append] at hp hl
  have hdec := unlines_split chunks.flatten
  have hlast := getLastD_split_no_sep '\n' chunks.flatten
  have hls : ∀ l ∈ (QString.split '\n' chunks.flatten).dropLast, '\n' ∉ l :=
    fun l hl => split_no_sep '\n' _ l (List.dropLast_subset _ hl)
  refine ⟨(QString.split '\n' chunks.flatten).dropLast,
    (QString.split '\n' chunks.flatten).getLastD [],
    completeLines home d.ui.checkBoxSearchOnlyHome chunks.flatten,
    hls, hlast, hdec.symm, ?_, ?_, ?_, hp, completeLines_sublist _ _ _, ?_, hl, ?_⟩
  · intro ms q hms hq h
    exact unlines_append_unique chunks.flatten ms q hms hq h.symm
  · intro hno
    rw [split_of_not_mem '\n' _ hno]
    rfl
  · intro hne hnil
    rw [hnil, List.append_nil] at hdec
    apply hend
    cases hd : (QString.split '\n' chunks.flatten).dropLast with
    | nil =>
      rw [hd] at hdec
      exact absurd hdec.symm hne
    | cons l ls =>
      rcases List.eq_nil_or_concat (l :: ls) with h | ⟨L, b, h⟩
      · exact absurd h (by simp)
      · rw [hd, h] at hdec
        refine ⟨unlines L ++ b, ?_⟩
        rw [← hdec]
        simp [unlines]
  · intro hoff
    rw [hoff, completeLines_off]
  · intro r bs hloc hbs
    rw [← hbs]
    exact feedBytes_eq_feedDecoded home bs d r hloc

/-- Witness for C2: the chunks `a\nb` and `c\nd`. -/
theorem readLocateOutput_unterminated_witness :
    ∃ (ls : QStringList) (p : QString) (kept : QStringList),
      (∀ l ∈ ls, '\n' ∉ l) ∧ '\n' ∉ p ∧
      ["a\nb".toList, "c\nd".toList].flatten = unlines ls ++ p ∧
      (∀ (ms : QStringList) (q : QString), (∀ l ∈ ms, '\n' ∉ l) → '\n' ∉ q →
        ["a\nb".toList, "c\nd".toList].flatten = unlines ms ++ q → ms = ls ∧ q = p) ∧
      ('\n' ∉ ["a\nb".toList, "c\nd".toList].flatten →
        p = ["a\nb".toList, "c\nd".toList].flatten) ∧
      (["a\nb".toList, "c\nd".toList].flatten ≠ [] → p ≠ []) ∧
      (feedDecoded exampleHome exampleSearching ["a\nb".toList, "c\nd".toList]).lastPartialLine
        = p ∧
      kept.Sublist ls ∧
      (exampleSearching.ui.checkBoxSearchOnlyHome = false → kept = ls) ∧
      (feedDecoded exampleHome exampleSearching ["a\nb".toList, "c\nd".toList]).ui.listWidget =
        exampleSearching.ui.listWidget ++
          kept.map (newItem exampleSearching.ui.checkBoxShowFullPath) ∧
      (∀ (r : QProcess) (bs : List QByteArray), exampleSearching.locate = some r →
        bs.map QString.fromUtf8 = ["a\nb".toList, "c\nd".toList] →
        feedBytes exampleHome exampleSearching bs =
          some (feedDecoded exampleHome exampleSearching ["a\nb".toList, "c\nd".toList])) :=
  readLocateOutput_unterminated exampleHome exampleSearching
    ["a\nb".toList, "c\nd".toList] (by decide)
    (by
      rintro ⟨t, ht⟩
      have h := congrArg List.getLast? ht
      rw [List.getLast?_concat] at h
      revert h
      decide)

/-! ## Facts about `waitForFinished` and `onFind` -/

theorem startedProcesses_append (es fs : List Effect) :
    startedProcesses (es ++ fs) = startedProcesses es ++ startedProcesses fs := by
  induction es with
  | nil => rfl
  | cons e es ih => cases e <;> simp [startedProcesses, ih]

/-- What the slots run inside the wait leave alone. -/
theorem foldl_readLocateOutputDecoded_frame (home : QString) (out : List QByteArray) :
    ∀ d : Dialog,
      let d2 := out.foldl
        (fun s bytes => readLocateOutputDecoded home s (QString.fromUtf8 bytes)) d
      d2.ui.lineEdit = d.ui.lineEdit ∧
      d2.ui.checkBoxCaseSensitive = d.ui.checkBoxCaseSensitive ∧
      d2.ui.checkBoxRegExp = d.ui.checkBoxRegExp ∧
      d2.originalLabelPalette = d.originalLabelPalette ∧
      d2.locate = d.locate ∧
      d2.effects = d.effects := by
  induction out with
  | nil => intro d; simp
  | cons b bs ih =>
    intro d
    have h := ih (readLocateOutputDecoded home d (QString.fromUtf8 b))
    simpa using h

/-- The slots run inside the wait keep the pending buffer free of line feeds. -/
theorem foldl_readLocateOutputDecoded_noNewline (home : QString) (out : List QByteArray) :
    ∀ d : Dialog, '\n' ∉ d.lastPartialLine →
      '\n' ∉ (out.foldl
        (fun s bytes => readLocateOutputDecoded home s (QString.fromUtf8 bytes)) d).lastPartialLine := by
  induction out with
  | nil => intro d hd; simpa using hd
  | cons b bs ih =>
    intro d _
    have h := ih (readLocateOutputDecoded home d (QString.fromUtf8 b))
      (by simpa using getLastD_split_no_sep '\n' (d.lastPartialLine ++ QString.fromUtf8 b))
    simpa using h

theorem locateFinishedOn_lineEdit (d : Dialog) (p : QProcess) :
    (locateFinishedOn d p).ui.lineEdit = d.ui.lineEdit := by
  simp only [locateFinishedOn]; split_ifs <;> rfl

theorem locateFinishedOn_caseSensitive (d : Dialog) (p : QProcess) :
    (locateFinishedOn d p).ui.checkBoxCaseSensitive = d.ui.checkBoxCaseSensitive := by
  simp only [locateFinishedOn]; split_ifs <;> rfl

theorem locateFinishedOn_regExp (d : Dialog) (p : QProcess) :
    (locateFinishedOn d p).ui.checkBoxRegExp = d.ui.checkBoxRegExp := by
  simp only [locateFinishedOn]; split_ifs <;> rfl

theorem locateFinishedOn_lastPartialLine (d : Dialog) (p : QProcess) :
    (locateFinishedOn d p).lastPartialLine = d.lastPartialLine := rfl

theorem waitForFinished_frame (home : QString) (d : Dialog) (p : QProcess) (w : WaitEvents) :
    (waitForFinished home d p w).ui.lineEdit = d.ui.lineEdit ∧
    (waitForFinished home d p w).ui.checkBoxCaseSensitive = d.ui.checkBoxCaseSensitive ∧
    (waitForFinished home d p w).ui.checkBoxRegExp = d.ui.checkBoxRegExp ∧
    (waitForFinished home d p w).originalLabelPalette = d.originalLabelPalette ∧
    ((waitForFinished home d p w).locate = d.locate ∨
      (waitForFinished home d p w).locate = none) ∧
    startedProcesses (waitForFinished home d p w).effects = startedProcesses d.effects := by
  have h := foldl_readLocateOutputDecoded_frame home w.output
    { d with effects := d.effects ++ [Effect.terminate p] }
  obtain ⟨h1, h2, h3, h4, h5, h6⟩ := h
  unfold waitForFinished
  cases hf : w.finished with
  | false =>
    simp only [Bool.false_eq_true, if_false]
    refine ⟨h1, h2, h3, h4, Or.inl h5, ?_⟩
    rw [h6, startedProcesses_append]
    simp [startedProcesses]
  | true =>
    simp only [if_true]
    refine ⟨?_, ?_, ?_, h4, Or.inr rfl, ?_⟩
    · rw [locateFinishedOn_lineEdit]; exact h1
    · rw [locateFinishedOn_caseSensitive]; exact h2
    · rw [locateFinishedOn_regExp]; exact h3
    · show startedProcesses (_ ++ [Effect.deleteLater p]) = _
      rw [h6, startedProcesses_append, startedProcesses_append]
      simp [startedProcesses]

theorem waitForFinished_noNewline (home : QString) (d : Dialog) (p : QProcess)
    (w : WaitEvents) (hd : '\n' ∉ d.lastPartialLine) :
    '\n' ∉ (waitForFinished home d p w).lastPartialLine := by
  have h := foldl_readLocateOutputDecoded_noNewline home w.output
    { d with effects := d.effects ++ [Effect.terminate p] } hd
  unfold waitForFinished
  cases hf : w.finished with
  | false => simpa using h
  | true =>
    simp only [if_true]
    rw [locateFinishedOn_lastPartialLine]
    exact h

/-- The inputs stored as those of the last search (lines 100 to 104). -/
theorem onFindStopPrevious_none (home : QString) (d : Dialog) (w : WaitEvents)
    (h : d.locate = none) :
    onFindStopPrevious home d w = { d with
      oldShowFullPath := d.ui.checkBoxShowFullPath
      oldUseRegExp := d.ui.checkBoxRegExp
      oldCaseSensitive := d.ui.checkBoxCaseSensitive
      oldSearchOnlyHome := d.ui.checkBoxSearchOnlyHome
      oldFindString := d.ui.lineEdit } := by
  simp [onFindStopPrevious, h]

theorem onFindStopPrevious_some (home : QString) (d : Dialog) (w : WaitEvents) (p : QProcess)
    (h : d.locate = some p) :
    onFindStopPrevious home d w = waitForFinished home { d with
      oldShowFullPath := d.ui.checkBoxShowFullPath
      oldUseRegExp := d.ui.checkBoxRegExp
      oldCaseSensitive := d.ui.checkBoxCaseSensitive
      oldSearchOnlyHome := d.ui.checkBoxSearchOnlyHome
      oldFindString := d.ui.lineEdit } p w := by
  simp [onFindStopPrevious, h]

theorem onFindStopPrevious_frame (home : QString) (d : Dialog) (w : WaitEvents) :
    (onFindStopPrevious home d w).ui.lineEdit = d.ui.lineEdit ∧
    (onFindStopPrevious home d w).ui.checkBoxCaseSensitive = d.ui.checkBoxCaseSensitive ∧
    (onFindStopPrevious home d w).ui.checkBoxRegExp = d.ui.checkBoxRegExp ∧
    (onFindStopPrevious home d w).originalLabelPalette = d.originalLabelPalette ∧
    ((onFindStopPrevious home d w).locate = d.locate ∨
      (onFindStopPrevious home d w).locate = none) ∧
    startedProcesses (onFindStopPrevious home d w).effects = startedProcesses d.effects ∧
    ('\n' ∉ d.lastPartialLine → '\n' ∉ (onFindStopPrevious home d w).lastPartialLine) := by
  cases hl : d.locate with
  | none =>
    rw [onFindStopPrevious_none home d w hl]
    exact ⟨rfl, rfl, rfl, rfl, Or.inr hl, rfl, id⟩
  | some p =>
    rw [onFindStopPrevious_some home d w p hl]
    obtain ⟨h1, h2, h3, h4, h5, h6⟩ := waitForFinished_frame home { d with
      oldShowFullPath := d.ui.checkBoxShowFullPath
      oldUseRegExp := d.ui.checkBoxRegExp
      oldCaseSensitive := d.ui.checkBoxCaseSensitive
      oldSearchOnlyHome := d.ui.checkBoxSearchOnlyHome
      oldFindString := d.ui.lineEdit } p w
    refine ⟨h1, h2, h3, h4, ?_, h6, fun hd => waitForFinished_noNewline home _ p w hd⟩
    rcases h5 with h5 | h5
    · exact Or.inl (h5.trans hl)
    · exact Or.inr h5

/-- The result of `onFind` when the inputs have changed. -/
theorem onFind_changed (home : QString) (d : Dialog) (w : WaitEvents)
    (hch : d.unchanged = false) :
    onFind home d w =
      if d.ui.lineEdit.isEmpty then
        { onFindStopPrevious home d w with ui := { (onFindStopPrevious home d w).ui with
            listWidget := []
            labelStatusPalette := d.originalLabelPalette
            labelStatusText := tr "Ready." } }
      else
        { onFindStopPrevious home d w with
          lastPartialLine := []
          ui := { (onFindStopPrevious home d w).ui with
            listWidget := []
            labelStatusPalette := d.originalLabelPalette
            labelStatusText := tr "Searching..." }
          locate := some ⟨"locate".toList,
            locateArgs d.ui.lineEdit d.ui.checkBoxCaseSensitive d.ui.checkBoxRegExp⟩
          effects := (onFindStopPrevious home d w).effects ++ [Effect.start ⟨"locate".toList,
            locateArgs d.ui.lineEdit d.ui.checkBoxCaseSensitive d.ui.checkBoxRegExp⟩] } := by
  obtain ⟨h1, h2, h3, h4, -, -, -⟩ := onFindStopPrevious_frame home d w
  simp only [onFind, hch, Bool.false_eq_true, if_false, h1, h2, h3, h4]

/-! ## Starting a search (C3, C6, C7) -/

/-- C3, counterexample. The search for `doc` has read the unfinished line
`/home/alice/do`; the user clears the query text and `onFind` runs (the inputs
differ from those of the last search).  The rows are cleared, but the pending
buffer still holds `/home/alice/do`: with an empty query text `onFind` returns
before `lastPartialLine.clear()`. -/
theorem onFind_empty_query_keeps_fragment :
    exampleCleared.unchanged = false ∧
    exampleCleared.ui.lineEdit = [] ∧
    (onFind exampleHome exampleCleared ⟨[], true⟩).ui.listWidget = [] ∧
    (onFind exampleHome exampleCleared ⟨[], true⟩).lastPartialLine = "/home/alice/do".toList ∧
    (onFind exampleHome exampleCleared ⟨[], true⟩).lastPartialLine ≠ [] := by
  decide

/-- C3, amended. For every prior state and every input that differs from the
last search, whatever the running process delivers while `onFind` waits for
it: after `onFind` the list of rows is empty, and when the query text is not
empty (a search is started) the pending buffer is empty. -/
theorem onFind_resets_results (home : QString) (d : Dialog) (w : WaitEvents)
    (hch : d.unchanged = false) :
    (onFind home d w).ui.listWidget = [] ∧
    (d.ui.lineEdit ≠ [] → (onFind home d w).lastPartialLine = []) := by
  rw [onFind_changed home d w hch]
  cases hq : d.ui.lineEdit with
  | nil => simp
  | cons c cs => simp

/-- Witness for C3 amended: the running search for `doc`, with rows pending,
when the query becomes `docs`. -/
theorem onFind_resets_results_witness :
    exampleExtended.unchanged = false ∧
    (onFind exampleHome exampleExtended
      ⟨["/home/alice/doc.txt\n/ho".toList.map Char.toNat], true⟩).ui.listWidget = [] ∧
    (exampleExtended.ui.lineEdit ≠ [] →
      (onFind exampleHome exampleExtended
        ⟨["/home/alice/doc.txt\n/ho".toList.map Char.toNat], true⟩).lastPartialLine = []) :=
  ⟨by decide, onFind_resets_results exampleHome exampleExtended
    ⟨["/home/alice/doc.txt\n/ho".toList.map Char.toNat], true⟩ (by decide)⟩

/-- C6. Empty query: for every prior state, and whatever a running process
delivers during the wait, `onFind` with an empty query text starts no process
(the processes started are those started before, and the current process is
the one before or none); and when the inputs differ from the last search, so
that `onFind` goes past its guard, the status text is `Ready.` and the label
has the original palette. -/
theorem onFind_empty_query (home : QString) (d : Dialog) (w : WaitEvents)
    (hq : d.ui.lineEdit = []) :
    startedProcesses (onFind home d w).effects = startedProcesses d.effects ∧
    ((onFind home d w).locate = d.locate ∨ (onFind home d w).locate = none) ∧
    (d.unchanged = false →
      (onFind home d w).ui.labelStatusText = "Ready.".toList ∧
      (onFind home d w).ui.labelStatusPalette = d.originalLabelPalette ∧
      (onFind home d w).originalLabelPalette = d.originalLabelPalette) := by
  cases hch : d.unchanged with
  | true => simp [onFind, hch]
  | false =>
    obtain ⟨-, -, -, h4, h5, h6, -⟩ := onFindStopPrevious_frame home d w
    have he : d.ui.lineEdit.isEmpty = true := by rw [hq]; rfl
    rw [onFind_changed home d w hch, if_pos he]
    exact ⟨h6, h5, fun _ => ⟨rfl, rfl, h4⟩⟩

/-- Witness for C6: the query text is cleared while the search for `doc`
runs. -/
theorem onFind_empty_query_witness :
    exampleCleared.ui.lineEdit = [] ∧
    startedProcesses (onFind exampleHome exampleCleared ⟨[], true⟩).effects =
      startedProcesses exampleCleared.effects ∧
    ((onFind exampleHome exampleCleared ⟨[], true⟩).locate = exampleCleared.locate ∨
      (onFind exampleHome exampleCleared ⟨[], true⟩).locate = none) ∧
    (exampleCleared.unchanged = false →
      (onFind exampleHome exampleCleared ⟨[], true⟩).ui.labelStatusText = "Ready.".toList ∧
      (onFind exampleHome exampleCleared ⟨[], true⟩).ui.labelStatusPalette =
        exampleCleared.originalLabelPalette ∧
      (onFind exampleHome exampleCleared ⟨[], true⟩).originalLabelPalette =
        exampleCleared.originalLabelPalette) :=
  ⟨by decide, onFind_empty_query exampleHome exampleCleared ⟨[], true⟩ (by decide)⟩

/-- C7. The command line of `locate`: for every non-empty query text and every
setting of the options, `onFind` starts nothing when the inputs are those of
the last search, and else starts exactly one process, the program `locate`
with the arguments `--existing`, `--basename`, then `--ignore-case` exactly
when case-sensitive is off, then `--regexp` exactly when regex is on, then the
query text as it is; this process becomes the current one.  The home-only and
show-full-path boxes do not occur in the argument list. -/
theorem onFind_locate_arguments (home : QString) (d : Dialog) (w : WaitEvents)
    (hq : d.ui.lineEdit ≠ []) :
    startedProcesses (onFind home d w).effects =
      startedProcesses d.effects ++
        (if d.unchanged then []
         else [⟨"locate".toList,
            ["--existing".toList, "--basename".toList] ++
            (if d.ui.checkBoxCaseSensitive then [] else ["--ignore-case".toList]) ++
            (if d.ui.checkBoxRegExp then ["--regexp".toList] else []) ++
            [d.ui.lineEdit]⟩]) ∧
    (d.unchanged = false →
      (onFind home d w).locate = some ⟨"locate".toList,
        ["--existing".toList, "--basename".toList] ++
        (if d.ui.checkBoxCaseSensitive then [] else ["--ignore-case".toList]) ++
        (if d.ui.checkBoxRegExp then ["--regexp".toList] else []) ++
        [d.ui.lineEdit]⟩) := by
  have hargs : locateArgs d.ui.lineEdit d.ui.checkBoxCaseSensitive d.ui.checkBoxRegExp =
      ["--existing".toList, "--basename".toList] ++
        (if d.ui.checkBoxCaseSensitive then [] else ["--ignore-case".toList]) ++
        (if d.ui.checkBoxRegExp then ["--regexp".toList] else []) ++
        [d.ui.lineEdit] := by
    unfold locateArgs
    cases d.ui.checkBoxCaseSensitive <;> cases d.ui.checkBoxRegExp <;> rfl
  cases hch : d.unchanged with
  | true => simp [onFind, hch]
  | false =>
    obtain ⟨-, -, -, -, -, h6, -⟩ := onFindStopPrevious_frame home d w
    have hne : d.ui.lineEdit.isEmpty = false := by
      cases hl : d.ui.lineEdit with
      | nil => exact absurd hl hq
      | cons c cs => rfl
    rw [onFind_changed home d w hch]
    simp only [hne, Bool.false_eq_true, if_false]
    refine ⟨?_, fun _ => ?_⟩
    · rw [startedProcesses_append, h6, hargs]
      rfl
    · rw [hargs]

/-- Witness for C7: the query `docs` while the search for `doc` runs. -/
theorem onFind_locate_arguments_witness :
    exampleExtended.ui.lineEdit ≠ [] ∧
    startedProcesses (onFind exampleHome exampleExtended ⟨[], true⟩).effects =
      startedProcesses exampleExtended.effects ++
        (if exampleExtended.unchanged then []
         else [⟨"locate".toList,
            ["--existing".toList, "--basename".toList] ++
            (if exampleExtended.ui.checkBoxCaseSensitive then [] else ["--ignore-case".toList]) ++
            (if exampleExtended.ui.checkBoxRegExp then ["--regexp".toList] else []) ++
            [exampleExtended.ui.lineEdit]⟩]) ∧
    (exampleExtended.unchanged = false →
      (onFind exampleHome exampleExtended ⟨[], true⟩).locate = some ⟨"locate".toList,
        ["--existing".toList, "--basename".toList] ++
        (if exampleExtended.ui.checkBoxCaseSensitive then [] else ["--ignore-case".toList]) ++
        (if exampleExtended.ui.checkBoxRegExp then ["--regexp".toList] else []) ++
        [exampleExtended.ui.lineEdit]⟩) :=
  ⟨by decide, onFind_locate_arguments exampleHome exampleExtended ⟨[], true⟩ (by decide)⟩

/-! ## The final status (C8) -/

theorem arg_files_found (a : QString) :
    QString.arg (tr "%1 files found.") a = a ++ " files found.".toList := by
  simp [tr, QString.arg]

/-- C8. Final status: when `locateFinished` runs for the current process, with
`n` rows in the list, it returns, and `n = 0` gives the text `Nothing found.`
on the original palette with its foreground set to red; `n = 1` gives the text
`1 file found.`; `n > 1` gives the decimal digits of `n` followed by
` files found.`; in the last two cases the palette of the label is left as it
was.  The rows are untouched. -/
theorem locateFinished_status (d : Dialog) (p : QProcess) (hp : d.locate = some p) :
    ∃ d1 : Dialog, locateFinished d = some d1 ∧
      d1.ui.listWidget = d.ui.listWidget ∧
      (d.ui.listWidget.length = 0 →
        d1.ui.labelStatusText = "Nothing found.".toList ∧
        d1.ui.labelStatusPalette.foreground = Qt.red ∧
        d1.ui.labelStatusPalette = QPalette.setColor d.originalLabelPalette Qt.red) ∧
      (d.ui.listWidget.length = 1 →
        d1.ui.labelStatusText = "1 file found.".toList ∧
        d1.ui.labelStatusPalette = d.ui.labelStatusPalette) ∧
      (1 < d.ui.listWidget.length →
        d1.ui.labelStatusText =
          (Nat.repr d.ui.listWidget.length).toList ++ " files found.".toList ∧
        d1.ui.labelStatusPalette = d.ui.labelStatusPalette) := by
  refine ⟨locateFinishedOn d p, by simp [locateFinished, hp], ?_, ?_, ?_, ?_⟩
  · simp only [locateFinishedOn]; split_ifs <;> rfl
  · intro h0
    simp only [locateFinishedOn, h0]
    exact ⟨rfl, rfl, rfl⟩
  · intro h1
    simp only [locateFinishedOn, h1]
    exact ⟨rfl, rfl⟩
  · intro hn
    have hgt : d.ui.listWidget.length > 1 := hn
    unfold locateFinishedOn
    dsimp only
    rw [if_pos hgt]
    exact ⟨arg_files_found _, rfl⟩

/-- Witness for C8: the search that has found three rows. -/
theorem locateFinished_status_witness :
    exampleThreeRows.locate = some ⟨"locate".toList,
        ["--existing".toList, "--basename".toList, "--ignore-case".toList, "doc".toList]⟩ ∧
    ∃ d1 : Dialog, locateFinished exampleThreeRows = some d1 ∧
      d1.ui.listWidget = exampleThreeRows.ui.listWidget ∧
      (exampleThreeRows.ui.listWidget.length = 0 →
        d1.ui.labelStatusText = "Nothing found.".toList ∧
        d1.ui.labelStatusPalette.foreground = Qt.red ∧
        d1.ui.labelStatusPalette =
          QPalette.setColor exampleThreeRows.originalLabelPalette Qt.red) ∧
      (exampleThreeRows.ui.listWidget.length = 1 →
        d1.ui.labelStatusText = "1 file found.".toList ∧
        d1.ui.labelStatusPalette = exampleThreeRows.ui.labelStatusPalette) ∧
      (1 < exampleThreeRows.ui.listWidget.length →
        d1.ui.labelStatusText =
          (Nat.repr exampleThreeRows.ui.listWidget.length).toList ++ " files found.".toList ∧
        d1.ui.labelStatusPalette = exampleThreeRows.ui.labelStatusPalette) :=
  ⟨by decide, locateFinished_status exampleThreeRows
    ⟨"locate".toList,
      ["--existing".toList, "--basename".toList, "--ignore-case".toList, "doc".toList]⟩
    (by decide)⟩

/-- The three final status texts on examples: no row, one row, three rows. -/
theorem locateFinished_examples :
    (locateFinished exampleSearching).map (fun d => (d.ui.labelStatusText, d.ui.labelStatusPalette))
      = some ("Nothing found.".toList, ⟨Qt.red⟩) ∧
    (locateFinished (readLocateOutputDecoded exampleHome exampleSearching "/a/doc1\n".toList)).map
      (fun d => (d.ui.labelStatusText, d.ui.labelStatusPalette))
      = some ("1 file found.".toList, exampleUi.labelStatusPalette) ∧
    (locateFinished exampleThreeRows).map
      (fun d => (d.ui.labelStatusText, d.ui.labelStatusPalette))
      = some ("3 files found.".toList, exampleUi.labelStatusPalette) := by
  decide

/-! ## The invariant of the pending buffer (C9) -/

/-- C9. In every reachable state of the dialog the pending buffer
`lastPartialLine` contains no line feed. -/
theorem lastPartialLine_no_newline (d : Dialog) (h : Reachable d) :
    '\n' ∉ d.lastPartialLine := by
  induction h with
  | init ui => simp [Dialog.init]
  | setInputs d text cs re oh fp _ ih => exact ih
  | onFind home d w _ ih =>
    cases hch : d.unchanged with
    | true => simpa [onFind, hch] using ih
    | false =>
      obtain ⟨-, -, -, -, -, -, h7⟩ := onFindStopPrevious_frame home d w
      rw [onFind_changed home d w hch]
      split
      · exact h7 ih
      · simp
  | readLocateOutput home d d1 bytes _ hstep _ =>
    unfold QLocate.readLocateOutput at hstep
    cases hl : d.locate with
    | none => simp [hl] at hstep
    | some p =>
      simp only [hl, Option.some.injEq] at hstep
      rw [← hstep]
      exact getLastD_split_no_sep '\n' _
  | locateFinished d d1 _ hstep ih =>
    unfold QLocate.locateFinished at hstep
    cases hl : d.locate with
    | none => simp [hl] at hstep
    | some p =>
      simp only [hl, Option.some.injEq] at hstep
      rw [← hstep]
      exact ih

/-- The example state with the unfinished line `/home/alice/do` is reachable:
the user types `doc`, `onFind` starts the search, and `readLocateOutput` reads
the bytes of `/home/alice/do`. -/
theorem exampleFragment_reachable : Reachable exampleFragment :=
  Reachable.readLocateOutput exampleHome exampleSearching exampleFragment
    ("/home/alice/do".toList.map Char.toNat)
    (Reachable.onFind exampleHome _ ⟨[], false⟩
      (Reachable.setInputs _ "doc".toList false false false false (Reachable.init exampleUi)))
    (by decide)

/-- Witness for C9: the reachable state with the unfinished line
`/home/alice/do`. -/
theorem lastPartialLine_no_newline_witness :
    Reachable exampleFragment ∧ '\n' ∉ exampleFragment.lastPartialLine :=
  ⟨exampleFragment_reachable, lastPartialLine_no_newline exampleFragment exampleFragment_reachable⟩

/-! ## The label of a row (C5) -/

/-- The text after the last occurrence of `c` has no `c`, and either the
string has no `c` and the text is the whole string, or the string is a prefix,
then `c`, then the text. -/
theorem mid_lastIndexOf (c : QChar) (s : QString) :
    c ∉ QString.mid s (QString.lastIndexOf c s + 1) ∧
    ((c ∉ s ∧ QString.lastIndexOf c s = -1 ∧
        QString.mid s (QString.lastIndexOf c s + 1) = s) ∨
      (0 ≤ QString.lastIndexOf c s ∧ QString.lastIndexOf c s < s.length ∧
        ∃ dir, s = dir ++ c :: QString.mid s (QString.lastIndexOf c s + 1))) := by
  induction s with
  | nil => simp [QString.lastIndexOf, QString.mid]
  | cons x xs ih =>
    obtain ⟨ih1, ih2⟩ := ih
    rcases ih2 with ⟨hno, hidx, hmid⟩ | ⟨h0, hlt, dir, hdir⟩
    · by_cases hx : x = c
      · have hl : QString.lastIndexOf c (x :: xs) = 0 := by
          simp [QString.lastIndexOf, hidx, hx]
        have hm : QString.mid (x :: xs) (QString.lastIndexOf c (x :: xs) + 1) = xs := by
          rw [hl]
          simp [QString.mid]
        rw [hm]
        refine ⟨hno, Or.inr ⟨by omega, by rw [hl]; simp, [], ?_⟩⟩
        simp [hx]
      · have hl : QString.lastIndexOf c (x :: xs) = -1 := by
          simp [QString.lastIndexOf, hidx, hx]
        have hm : QString.mid (x :: xs) (QString.lastIndexOf c (x :: xs) + 1) = x :: xs := by
          rw [hl]
          have e0 : ¬ ((-1 : Int) + 1 > ((x :: xs).length : Int)) := by
            simp only [List.length_cons, Nat.cast_add, Nat.cast_one]
            omega
          unfold QString.mid
          rw [if_neg e0]
          rfl
        rw [hm]
        have hmem : c ∉ x :: xs := by
          intro h
          rcases List.mem_cons.1 h with e | e
          · exact hx e.symm
          · exact hno e
        exact ⟨hmem, Or.inl ⟨hmem, hl, rfl⟩⟩
    · have hl : QString.lastIndexOf c (x :: xs) = QString.lastIndexOf c xs + 1 := by
        simp [QString.lastIndexOf, h0]
      have hm : QString.mid (x :: xs) (QString.lastIndexOf c (x :: xs) + 1) =
          QString.mid xs (QString.lastIndexOf c xs + 1) := by
        rw [hl]
        unfold QString.mid
        have e1 : ¬ (QString.lastIndexOf c xs + 1 + 1 > ((x :: xs).length : Int)) := by
          simp only [List.length_cons, Nat.cast_add, Nat.cast_one]
          omega
        have e2 : ¬ (QString.lastIndexOf c xs + 1 > (xs.length : Int)) := by omega
        rw [if_neg e1, if_neg e2]
        have e3 : (QString.lastIndexOf c xs + 1 + 1).toNat =
            (QString.lastIndexOf c xs + 1).toNat + 1 := by omega
        rw [e3]
        rfl
      rw [hm]
      refine ⟨ih1, Or.inr ⟨by omega, ?_, x :: dir, ?_⟩⟩
      · rw [hl]
        simp only [List.length_cons, Nat.cast_add, Nat.cast_one]
        omega
      · rw [List.cons_append, ← hdir]

/-- C5. Row label with show-full-path off: `readLocateOutput` appends one row
for each complete path it emits, in order; the tool tip of the row is the path
unchanged, and its display label is the text after the last `/` of the path:
the label contains no `/`, is a suffix of the path, is the whole path when the
path has no `/`, and otherwise the path is a directory part, a `/`, and the
label. -/
theorem readLocateOutput_row_label (home : QString) (d : Dialog) (output : QString)
    (hfp : d.ui.checkBoxShowFullPath = false) :
    ∃ rows : List QListWidgetItem,
      (readLocateOutputDecoded home d output).ui.listWidget = d.ui.listWidget ++ rows ∧
      List.Forall₂
        (fun (path : QString) (item : QListWidgetItem) =>
          item.toolTip = some path ∧
          ∃ label : QString, item.display = some label ∧
            '/' ∉ label ∧ label <:+ path ∧
            (('/' ∉ path ∧ label = path) ∨ ∃ dir, path = dir ++ '/' :: label))
        (completeLines home d.ui.checkBoxSearchOnlyHome (d.lastPartialLine ++ output))
        rows := by
  refine ⟨_, readLocateOutputDecoded_listWidget home d output, ?_⟩
  rw [hfp]
  generalize completeLines home d.ui.checkBoxSearchOnlyHome (d.lastPartialLine ++ output) = ls
  induction ls with
  | nil => exact List.Forall₂.nil
  | cons path ls ih =>
    refine List.Forall₂.cons ⟨rfl, _, rfl, ?_⟩ ih
    obtain ⟨h1, h2⟩ := mid_lastIndexOf '/' path
    refine ⟨h1, ?_, ?_⟩
    · rcases h2 with ⟨-, -, hm⟩ | ⟨-, -, dir, hdir⟩
      · rw [hm]
      · exact ⟨dir ++ ['/'], by rw [List.append_assoc]; exact hdir.symm⟩
    · rcases h2 with ⟨hno, -, hm⟩ | ⟨-, -, dir, hdir⟩
      · exact Or.inl ⟨hno, hm⟩
      · exact Or.inr ⟨dir, hdir⟩

/-- Witness for C5: the chunk `/home/alice/sub/report.pdf` and a line feed. -/
theorem readLocateOutput_row_label_witness :
    exampleSearching.ui.checkBoxShowFullPath = false ∧
    ∃ rows : List QListWidgetItem,
      (readLocateOutputDecoded exampleHome exampleSearching
        "/home/alice/sub/report.pdf\n".toList).ui.listWidget =
          exampleSearching.ui.listWidget ++ rows ∧
      List.Forall₂
        (fun (path : QString) (item : QListWidgetItem) =>
          item.toolTip = some path ∧
          ∃ label : QString, item.display = some label ∧
            '/' ∉ label ∧ label <:+ path ∧
            (('/' ∉ path ∧ label = path) ∨ ∃ dir, path = dir ++ '/' :: label))
        (completeLines exampleHome exampleSearching.ui.checkBoxSearchOnlyHome
          (exampleSearching.lastPartialLine ++ "/home/alice/sub/report.pdf\n".toList))
        rows :=
  ⟨by decide, readLocateOutput_row_label exampleHome exampleSearching
    "/home/alice/sub/report.pdf\n".toList (by decide)⟩

/-- The example of the specification: the path `/home/alice/sub/report.pdf`
gives the label `report.pdf` and the tool tip `/home/alice/sub/report.pdf`. -/
theorem row_label_example :
    (readLocateOutputDecoded exampleHome exampleSearching
      "/home/alice/sub/report.pdf\n".toList).ui.listWidget =
      [{ icon := "/home/alice/sub/report.pdf".toList
         display := some "report.pdf".toList
         toolTip := some "/home/alice/sub/report.pdf".toList }] := by
  decide

/-! ## The home-only filter (C4) -/

theorem arg_home_pattern (a : QString) :
    QString.arg "^%1/".toList a = '^' :: (a ++ ['/']) := by
  simp [QString.arg]

/-- A character that is not special stands for itself in a pattern. -/
theorem parse_cons_plain (c d : QChar) (r : QString) (h : rxSpecial c = false) :
    QRegExp.parse (c :: d :: r) =
      (QRegExp.parse (d :: r)).map (fun as => RxAtom.lit c :: as) := by
  have h1 : c ≠ '\\' := by rintro rfl; revert h; decide
  have h2 : c ≠ '^' := by rintro rfl; revert h; decide
  have h3 : c ≠ '$' := by rintro rfl; revert h; decide
  have h4 : c ≠ '.' := by rintro rfl; revert h; decide
  simp [QRegExp.parse, h1, h2, h3, h4, h]

/-- An escaped special character stands for itself in a pattern. -/
theorem parse_cons_escaped (c : QChar) (r : QString) (h : rxSpecial c = true) :
    QRegExp.parse ('\\' :: c :: r) =
      (QRegExp.parse r).map (fun as => RxAtom.lit c :: as) := by
  simp [QRegExp.parse, h]

/-- An escaped text in front of a pattern parses to the characters of the
text, each standing for itself. -/
theorem parse_escape_append (h rest : QString) (atoms : List RxAtom)
    (hr : rest ≠ []) (hp : QRegExp.parse rest = some atoms) :
    QRegExp.parse (QRegExp.escape h ++ rest) = some (h.map RxAtom.lit ++ atoms) := by
  induction h with
  | nil => simpa [QRegExp.escape] using hp
  | cons c cs ih =>
    cases hs : rxSpecial c with
    | true =>
      simp only [QRegExp.escape, hs, if_true, List.cons_append]
      rw [parse_cons_escaped c _ hs, ih]
      rfl
    | false =>
      simp only [QRegExp.escape, hs, Bool.false_eq_true, if_false, List.cons_append]
      cases hrest : QRegExp.escape cs ++ rest with
      | nil =>
        exfalso
        exact hr (List.append_eq_nil.1 hrest).2
      | cons x xs =>
        rw [parse_cons_plain c x xs hs, ← hrest, ih]
        rfl

/-- The pattern the dialog builds for the home directory `home`: the start
anchor, then every character of `home` standing for itself, then `/`. -/
theorem parse_home_pattern (home : QString) :
    QRegExp.parse (QString.arg "^%1/".toList (QRegExp.escape home)) =
      some (RxAtom.bol :: (home ++ ['/']).map RxAtom.lit) := by
  rw [arg_home_pattern]
  have h1 : QRegExp.parse (QRegExp.escape home ++ ['/']) =
      some (home.map RxAtom.lit ++ [RxAtom.lit '/']) :=
    parse_escape_append home ['/'] [RxAtom.lit '/'] (by simp) (by decide)
  cases hx : QRegExp.escape home ++ ['/'] with
  | nil => simp at hx
  | cons x xs =>
    rw [hx] at h1
    have h2 : QRegExp.parse ('^' :: x :: xs) =
        (QRegExp.parse (x :: xs)).map (fun as => RxAtom.bol :: as) := by
      simp [QRegExp.parse]
    rw [h2, h1]
    simp

/-- A sequence of characters standing for themselves matches at a position
exactly when the text there starts with them. -/
theorem matchHere_lits (p : QString) :
    ∀ (b : Bool) (s : QString), RxAtom.matchHere (p.map RxAtom.lit) b s = true ↔ p <+: s := by
  induction p with
  | nil => intro b s; simp [RxAtom.matchHere]
  | cons c cs ih =>
    intro b s
    cases s with
    | nil => simp [RxAtom.matchHere]
    | cons x xs =>
      simp only [List.map_cons, RxAtom.matchHere, Bool.and_eq_true, beq_iff_eq, ih false xs]
      constructor
      · rintro ⟨rfl, h⟩
        exact (List.prefix_cons_inj x).2 h
      · intro h
        have hx : c = x := by
          obtain ⟨t, ht⟩ := h
          simp only [List.cons_append, List.cons.injEq] at ht
          exact ht.1
        subst hx
        exact ⟨rfl, (List.prefix_cons_inj c).1 h⟩

/-- An anchored pattern does not match past the start of the text. -/
theorem searchFrom_bol_false (as : List RxAtom) (s : QString) :
    RxAtom.searchFrom (RxAtom.bol :: as) false s = -1 := by
  induction s with
  | nil => simp [RxAtom.searchFrom, RxAtom.matchHere]
  | cons x xs ih => simp [RxAtom.searchFrom, RxAtom.matchHere, ih]

/-- An anchored pattern is found exactly when it matches at the start. -/
theorem searchFrom_bol_true (as : List RxAtom) (s : QString) :
    RxAtom.searchFrom (RxAtom.bol :: as) true s ≠ -1 ↔ RxAtom.matchHere as true s = true := by
  cases s with
  | nil =>
    cases h : RxAtom.matchHere as true [] <;> simp [RxAtom.searchFrom, RxAtom.matchHere, h]
  | cons x xs =>
    cases h : RxAtom.matchHere as true (x :: xs) <;>
      simp [RxAtom.searchFrom, RxAtom.matchHere, h, searchFrom_bol_false]

/-- The regular expression of the home-only filter is a plain prefix test: a
line contains a match exactly when it starts with `home` followed by `/`. -/
theorem containsRx_home_pattern (home line : QString) :
    QString.containsRx line
      (QRegExp.ofPattern (QString.arg "^%1/".toList (QRegExp.escape home))) =
      decide (home ++ ['/'] <+: line) := by
  have h := searchFrom_bol_true ((home ++ ['/']).map RxAtom.lit) line
  rw [matchHere_lits] at h
  unfold QString.containsRx QRegExp.indexIn QRegExp.ofPattern
  rw [parse_home_pattern]
  by_cases hp : home ++ ['/'] <+: line
  · simp only [hp, decide_True, bne_iff_ne, ne_eq]
    exact h.2 hp
  · simp only [hp, decide_False, bne_eq_false_iff_eq]
    by_contra hne
    exact hp (h.1 hne)

/-- C4. Home-only filtering: with the home-only box set, for every home
directory `home`, the pattern built from the escaped home path is the start
anchor followed by the characters of `home` and a `/`, each standing for
itself; a line contains a match exactly when it starts with `home` followed
by `/`; and the rows `readLocateOutput` appends are the rows of the complete
lines that start with `home` followed by `/`, in their order. -/
theorem readLocateOutput_home_only (home : QString) (d : Dialog) (output : QString)
    (hon : d.ui.checkBoxSearchOnlyHome = true) :
    QRegExp.parse (QString.arg "^%1/".toList (QRegExp.escape home)) =
      some (RxAtom.bol :: (home ++ ['/']).map RxAtom.lit) ∧
    (∀ line : QString,
      QString.containsRx line
        (QRegExp.ofPattern (QString.arg "^%1/".toList (QRegExp.escape home))) = true ↔
      home ++ ['/'] <+: line) ∧
    (readLocateOutputDecoded home d output).ui.listWidget =
      d.ui.listWidget ++
        (List.filter (fun line => decide (home ++ ['/'] <+: line))
          (QString.split '\n' (d.lastPartialLine ++ output)).dropLast).map
          (newItem d.ui.checkBoxShowFullPath) := by
  refine ⟨parse_home_pattern home, fun line => ?_, ?_⟩
  · rw [containsRx_home_pattern]
    simp
  · rw [readLocateOutputDecoded_listWidget, hon]
    simp only [completeLines, if_true, QStringList.filter]
    congr 2
    apply List.filter_congr
    intro line _
    exact containsRx_home_pattern home line

/-- Witness for C4: home `/home/alice`, the batch `/home/alice/doc.txt`,
`/etc/passwd`. -/
theorem readLocateOutput_home_only_witness :
    exampleHomeOnly.ui.checkBoxSearchOnlyHome = true ∧
    QRegExp.parse (QString.arg "^%1/".toList (QRegExp.escape exampleHome)) =
      some (RxAtom.bol :: (exampleHome ++ ['/']).map RxAtom.lit) ∧
    (∀ line : QString,
      QString.containsRx line
        (QRegExp.ofPattern (QString.arg "^%1/".toList (QRegExp.escape exampleHome))) = true ↔
      exampleHome ++ ['/'] <+: line) ∧
    (readLocateOutputDecoded exampleHome exampleHomeOnly
      "/home/alice/doc.txt\n/etc/passwd\n".toList).ui.listWidget =
      exampleHomeOnly.ui.listWidget ++
        (List.filter (fun line => decide (exampleHome ++ ['/'] <+: line))
          (QString.split '\n' (exampleHomeOnly.lastPartialLine ++
            "/home/alice/doc.txt\n/etc/passwd\n".toList)).dropLast).map
          (newItem exampleHomeOnly.ui.checkBoxShowFullPath) :=
  ⟨by decide, readLocateOutput_home_only exampleHome exampleHomeOnly
    "/home/alice/doc.txt\n/etc/passwd\n".toList (by decide)⟩

/-- The example of the specification: with home `/home/alice` and the
home-only box set, the batch `/home/alice/doc.txt`, `/etc/passwd` gives a row
for `/home/alice/doc.txt` only. -/
theorem home_only_example :
    (readLocateOutputDecoded exampleHome exampleHomeOnly
      "/home/alice/doc.txt\n/etc/passwd\n".toList).ui.listWidget =
      [{ icon := "/home/alice/doc.txt".toList
         display := some "doc.txt".toList
         toolTip := some "/home/alice/doc.txt".toList }] := by
  decide

/-- Escaping matters: a home directory `/home/a.b` does not let the line
`/home/axb/x` through, while the pattern without escaping would. -/
theorem escape_example :
    QString.containsRx "/home/axb/x".toList
      (QRegExp.ofPattern (QString.arg "^%1/".toList (QRegExp.escape "/home/a.b".toList)))
      = false ∧
    QString.containsRx "/home/axb/x".toList
      (QRegExp.ofPattern (QString.arg "^%1/".toList "/home/a.b".toList)) = true := by
  decide

/-! ## Chunk boundaries (C10) -/

/-- Cutting the decoded text into chunks does not matter: from a pending
buffer without line feed, text chunks handed over one by one give the rows and
the pending buffer of their concatenation handed over as one chunk. -/
theorem feedDecoded_chunking (home : QString) (d : Dialog) (chunks : List QString)
    (hd : '\n' ∉ d.lastPartialLine) :
    (feedDecoded home d chunks).ui.listWidget =
      (readLocateOutputDecoded home d chunks.flatten).ui.listWidget ∧
    (feedDecoded home d chunks).lastPartialLine =
      (readLocateOutputDecoded home d chunks.flatten).lastPartialLine := by
  obtain ⟨hp, hl, -, -⟩ := feedDecoded_spec home chunks d hd
  exact ⟨hl, hp⟩

/-- Byte chunks cut between characters: when decoding the chunks one by one
gives the text of the whole byte sequence, the chunks handed to
`readLocateOutput` one by one give the rows and the pending buffer of the
whole byte sequence handed over as one chunk. -/
theorem feedBytes_chunking (home : QString) (d : Dialog) (p : QProcess)
    (chunks : List QByteArray)
    (hp : d.locate = some p) (hd : '\n' ∉ d.lastPartialLine)
    (hcut : (chunks.map QString.fromUtf8).flatten = QString.fromUtf8 chunks.flatten) :
    ∃ d1 d2 : Dialog,
      feedBytes home d chunks = some d1 ∧
      readLocateOutput home d chunks.flatten = some d2 ∧
      d1.ui.listWidget = d2.ui.listWidget ∧
      d1.lastPartialLine = d2.lastPartialLine := by
  have h2 : readLocateOutput home d chunks.flatten =
      some (readLocateOutputDecoded home d (QString.fromUtf8 chunks.flatten)) := by
    simp [readLocateOutput, hp]
  refine ⟨_, _, feedBytes_eq_feedDecoded home chunks d p hp, h2, ?_⟩
  rw [← hcut]
  exact feedDecoded_chunking home d _ hd

/-- C10, the code at a failing input. The process writes the four bytes
`2F C3 A9 0A`, the path `/é` and a line feed.  Read as one chunk they give one
row for the path `/é`.  Read as the chunks `2F C3` and `A9 0A`, cut inside the
two-byte character, each chunk is decoded on its own: the lead byte `C3` at the
end of the first chunk and the continuation byte `A9` at the start of the
second each become the replacement character U+FFFD, and the row is made for
the path `/`, U+FFFD, U+FFFD.  The rows differ. -/
theorem readLocateOutput_split_character :
    (feedBytes exampleHome exampleSearching [[0x2F, 0xC3, 0xA9, 0x0A]]).map
      (fun d => (d.ui.listWidget.map (QListWidgetItem.path false), d.lastPartialLine)) =
      some ([some ['/', 'é']], []) ∧
    (feedBytes exampleHome exampleSearching [[0x2F, 0xC3], [0xA9, 0x0A]]).map
      (fun d => (d.ui.listWidget.map (QListWidgetItem.path false), d.lastPartialLine)) =
      some ([some ['/', replacementChar, replacementChar]], []) ∧
    (feedBytes exampleHome exampleSearching [[0x2F, 0xC3], [0xA9, 0x0A]]).map
      (fun d => d.ui.listWidget) ≠
    (feedBytes exampleHome exampleSearching [[0x2F, 0xC3, 0xA9, 0x0A]]).map
      (fun d => d.ui.listWidget) := by
  decide

end QLocate
